import Mathlib

/-!
Verification of the document retrieval engine in `rag_system.py`.

The development shallowly embeds the `SimpleVectorStore` / `RAGSystem`
classes: text is a list of characters, the JSON-backed document list is a
Lean list of records, Python floats are modelled by exact arithmetic
(`ℚ` for term frequencies, `ℝ` for similarity scores, since cosine
similarity involves a square root).  The md5-derived parent id is
abstracted as a function parameter `hash`; the only property the source
relies on is that it is a function of the content.
-/

namespace RagSystem

/-- Text is modelled as a list of characters. -/
abbrev Str := List Char

/-- Model of the whitespace class used by `str.split()` / `str.strip()`
and the regex class `\s`. -/
def isWS (c : Char) : Bool := c.isWhitespace

/-- Model of the regex word-character class `\w` over the basic latin range. -/
def isWordChar (c : Char) : Bool := c.isAlphanum || c == '_'

/-- Model of `text.lower()` (per character, basic latin). -/
def lowerStr (s : Str) : Str := s.map Char.toLower

/-- Model of `re.sub(r'[^\w\s]', ' ', text)`: every character that is
neither a word character nor whitespace becomes a space. -/
def subNonWord (s : Str) : Str := s.map (fun c => if isWordChar c || isWS c then c else ' ')

/-- Model of Python `text.split()` with no separator: split on runs of
whitespace, producing no empty words. -/
def words : Str → List Str
  | [] => []
  | [c] => if isWS c then [] else [[c]]
  | c :: d :: s =>
    if isWS c then words (d :: s)
    else
      match words (d :: s) with
      | [] => [[c]]
      | w :: ws => if isWS d then [c] :: w :: ws else (c :: w) :: ws

/-- Model of `' '.join(ws)`. -/
def joinSpace : List Str → Str
  | [] => []
  | [w] => w
  | w :: v :: ws => w ++ ' ' :: joinSpace (v :: ws)

/-- Model of `sep.join(parts)` for an arbitrary separator. -/
def joinWith (sep : Str) : List Str → Str
  | [] => []
  | [p] => p
  | p :: q :: ps => p ++ sep ++ joinWith sep (q :: ps)

/-- The stopword set of `_tokenize`. -/
def stopwords : List Str :=
  [ "a".toList, "o".toList, "e".toList, "de".toList, "do".toList, "da".toList,
    "em".toList, "um".toList, "uma".toList, "para".toList, "com".toList, "que".toList,
    "the".toList, "is".toList, "and".toList, "or".toList, "to".toList, "of".toList]

/-- Model of `_tokenize`: lowercase, replace non-word non-space characters
by spaces, split on whitespace, drop stopwords and tokens of length at
most one. -/
def tokenize (text : Str) : List Str :=
  (words (subNonWord (lowerStr text))).filter
    (fun t => decide (t ∉ stopwords) && decide (1 < t.length))

/-- One step of the counting loop `tf[token] = tf.get(token, 0) + 1` on an
insertion-ordered association list (the model of a Python dict). -/
def bump : List (Str × ℕ) → Str → List (Str × ℕ)
  | [], t => [(t, 1)]
  | (k, n) :: rest, t => if k = t then (k, n + 1) :: rest else (k, n) :: bump rest t

/-- The token-count dictionary built by the first loop of `_compute_tf`. -/
def counts (tokens : List Str) : List (Str × ℕ) := tokens.foldl bump []

/-- Model of `_compute_tf`: occurrence counts divided by the total number
of tokens; the empty token list yields the empty mapping. -/
def computeTF (tokens : List Str) : List (Str × ℚ) :=
  if tokens.length = 0 then []
  else (counts tokens).map (fun p => (p.1, (p.2 : ℚ) / (tokens.length : ℚ)))

/-- Model of `dict.get(t, z)` on an association list. -/
def getD0 {α : Type} (z : α) : List (Str × α) → Str → α
  | [], _ => z
  | (k, x) :: rest, t => if k = t then x else getD0 z rest t

/-- Model of `vec.get(t, 0)` for a term-frequency mapping. -/
def getv (v : List (Str × ℚ)) (t : Str) : ℚ := getD0 0 v t

/-- Keys of an association list, in insertion order. -/
def keysOf {α : Type} (v : List (Str × α)) : List Str := v.map Prod.fst

/-- First-occurrence deduplication; models iterating the Python set
`set(vec1.keys()) | set(vec2.keys())` (every sum taken over it is
order-independent). -/
def firstDedup : List Str → List Str
  | [] => []
  | a :: l => a :: (firstDedup l).filter (fun x => !(x == a))

/-- The dot product of `_cosine_similarity`: the sum of
`vec1.get(t, 0) * vec2.get(t, 0)` over the union of the key sets. -/
def dot (a b : List (Str × ℚ)) : ℚ :=
  ((firstDedup (keysOf a ++ keysOf b)).map (fun t => getv a t * getv b t)).sum

/-- The squared magnitude `sum(v**2 for v in vec.values())`. -/
def magSq (v : List (Str × ℚ)) : ℚ := (v.map (fun p => p.2 ^ 2)).sum

open Classical in
/-- Model of `_cosine_similarity`: `dot / (mag1 * mag2)`, or `0` when
either magnitude is zero. -/
noncomputable def cosine (a b : List (Str × ℚ)) : ℝ :=
  if Real.sqrt (magSq a) = 0 ∨ Real.sqrt (magSq b) = 0 then 0
  else (dot a b : ℝ) / (Real.sqrt (magSq a) * Real.sqrt (magSq b))

/-- Model of `str.strip()` for the whitespace predicate above. -/
def stripWS (s : Str) : Str := ((s.dropWhile isWS).reverse.dropWhile isWS).reverse

/-- The `while start < len(words)` loop of `_chunk_text`: emit the window
of `size` words at `start` (joined by single spaces, skipped if blank) and
advance `start` by `size - overlap`.  The Python loop terminates exactly
when `overlap < size`; the embedding takes that precondition as a
hypothesis. -/
def chunkFrom (size overlap : ℕ) (hov : overlap < size) (ws : List Str) (start : ℕ) :
    List Str :=
  if h : start < ws.length then
    let chunk := joinSpace ((ws.drop start).take size)
    let rest := chunkFrom size overlap hov ws (start + (size - overlap))
    if stripWS chunk = [] then rest else chunk :: rest
  else []
  termination_by ws.length - start
  decreasing_by omega

/-- Model of `_chunk_text` for arbitrary parameters, including the final
`return chunks if chunks else [text]` fallback. -/
def chunkTextP (size overlap : ℕ) (hov : overlap < size) (text : Str) : List Str :=
  let chunks := chunkFrom size overlap hov (words text) 0
  if chunks = [] then [text] else chunks

/-- Model of `_chunk_text` at its default parameters `chunk_size=512`,
`overlap=50`, as called by `add_document`. -/
def chunkText (text : Str) : List Str := chunkTextP 512 50 (by decide) text

/-- Inert payload standing for the Python metadata dict. -/
abbrev Metadata := List (Str × Str)

/-- One stored chunk record, as built by `add_document`. -/
structure Rec where
  id : Str
  parent_id : Str
  content : Str
  tokens : List Str
  tf_vector : List (Str × ℚ)
  metadata : Metadata
  chunk_index : ℕ
  total_chunks : ℕ
deriving DecidableEq

/-- The record built for chunk `i` of a document (the body of the `for`
loop of `add_document`). -/
def mkRecord (pid : Str) (meta : Metadata) (total : ℕ) (i : ℕ) (chunk : Str) : Rec :=
  { id := pid ++ '_' :: (Nat.repr i).toList
    parent_id := pid
    content := chunk
    tokens := tokenize chunk
    tf_vector := computeTF (tokenize chunk)
    metadata := meta
    chunk_index := i
    total_chunks := total }

/-- Model of `add_document`: chunk the content, append one record per
chunk, return the new document list together with the returned `doc_id`.
The md5-based id is abstracted as `hash`. -/
def addDocument (hash : Str → Str) (docs : List Rec) (content : Str) (meta : Metadata) :
    List Rec × Str :=
  let pid := hash content
  let chunks := chunkText content
  (docs ++ chunks.enum.map (fun p => mkRecord pid meta chunks.length p.1 p.2), pid)

/-- One search hit, as assembled by `search`. -/
structure Result where
  id : Str
  content : Str
  similarity : ℝ
  metadata : Metadata

/-- Model of `round(x, 4)`: rounding to four decimal digits.  Python
rounds halves to even; no claim depends on behaviour at exact midpoint
ticks, so the round-half-up function of Mathlib is used. -/
noncomputable def round4 (x : ℝ) : ℝ := (round (x * 10000) : ℤ) / 10000

/-- The descending similarity order used by
`results.sort(key=lambda x: x["similarity"], reverse=True)`. -/
def simGE (a b : Result) : Prop := b.similarity ≤ a.similarity

instance : IsTotal Result simGE := ⟨fun a b => le_total b.similarity a.similarity⟩

instance : IsTrans Result simGE := ⟨fun _ _ _ h1 h2 => le_trans h2 h1⟩

open Classical in
noncomputable instance : DecidableRel simGE := fun _ _ => propDecidable _

open Classical in
/-- The loop body of `search`: score one stored record against the query
vector, keep it when the similarity exceeds the `0.01` threshold, storing
the similarity rounded to four decimals. -/
noncomputable def scoreDoc (queryTF : List (Str × ℚ)) (d : Rec) : Option Result :=
  if cosine queryTF d.tf_vector > 1 / 100 then
    some { id := d.id, content := d.content,
           similarity := round4 (cosine queryTF d.tf_vector), metadata := d.metadata }
  else none

open Classical in
/-- Model of `search`: score every record, keep the qualifying ones, sort
descending by the stored similarity (a stable sort, as in Python), and
truncate to `top_k`. -/
noncomputable def search (docs : List Rec) (query : Str) (topk : ℕ) : List Result :=
  (List.insertionSort simGE (docs.filterMap (scoreDoc (computeTF (tokenize query))))).take topk

/-- Model of `delete_document`: keep the records whose `parent_id` and
`id` both differ from the argument.  The boolean is the return value; it
also records whether `_save()` ran, since the source does both exactly
when the length decreased. -/
def deleteDocument (docs : List Rec) (docId : Str) : List Rec × Bool :=
  let remaining := docs.filter (fun d => !(d.parent_id == docId) && !(d.id == docId))
  (remaining, decide (remaining.length < docs.length))

/-- One document summary, as emitted by `get_all_documents`. -/
structure Summary where
  id : Str
  preview : Str
  metadata : Metadata
  chunks : ℕ
deriving DecidableEq

/-- The summary built from the first record seen for a parent id. -/
def mkSummary (d : Rec) : Summary :=
  { id := d.parent_id, preview := d.content.take 200,
    metadata := d.metadata, chunks := d.total_chunks }

/-- The `seen` / `unique` loop of `get_all_documents`. -/
def gadAux : List Rec → List Str → List Summary
  | [], _ => []
  | d :: rest, seen =>
    if d.parent_id ∈ seen then gadAux rest seen
    else mkSummary d :: gadAux rest (d.parent_id :: seen)

/-- Model of `get_all_documents`. -/
def getAllDocuments (docs : List Rec) : List Summary := gadAux docs []

/-- The hit formatting of `RAGSystem.query`; `fmt` abstracts the
Python `:.2%` float formatting. -/
def formatHit (fmt : ℝ → Str) (i : ℕ) (r : Result) : Str :=
  "[Doc ".toList ++ (Nat.repr (i + 1)).toList ++ "] (Relevancia: ".toList ++
    fmt r.similarity ++ ")\n".toList ++ r.content

/-- The `for i, r in enumerate(results)` loop building the parts list. -/
def formatParts (fmt : ℝ → Str) : ℕ → List Result → List Str
  | _, [] => []
  | i, r :: rs => formatHit fmt i r :: formatParts fmt (i + 1) rs

/-- The separator joining formatted hits. -/
def querySep : Str := "\n\n---\n\n".toList

/-- Model of `RAGSystem.query`: rank via `search`; the empty result list
gives the empty string, otherwise the formatted hits joined by the fixed
separator. -/
noncomputable def ragQuery (fmt : ℝ → Str) (docs : List Rec) (question : Str) (topk : ℕ) :
    Str :=
  let results := search docs question topk
  if results.isEmpty then [] else joinWith querySep (formatParts fmt 0 results)

/-- Well-formedness of a term-frequency mapping: distinct keys and
non-negative values.  Every mapping built by `_compute_tf` satisfies
this. -/
def IsTF (v : List (Str × ℚ)) : Prop := (keysOf v).Nodup ∧ ∀ p ∈ v, 0 ≤ p.2

instance : DecidablePred IsTF := fun v => by unfold IsTF; infer_instance

open Classical in
/-- Modelled from the spec (§4.4), for the refinement half of C2: over the
union of the key sets of both maps (absent keys treated as 0), the dot product
divided by the product of the magnitudes, or 0 if either magnitude is 0. -/
noncomputable def cosineSpec (a b : List (Str × ℚ)) : ℝ :=
  let U := (keysOf a).toFinset ∪ (keysOf b).toFinset
  let magA := Real.sqrt (∑ t ∈ U, (getv a t : ℝ) ^ 2)
  let magB := Real.sqrt (∑ t ∈ U, (getv b t : ℝ) ^ 2)
  if magA = 0 ∨ magB = 0 then 0
  else (∑ t ∈ U, (getv a t : ℝ) * (getv b t : ℝ)) / (magA * magB)

/-- Test fixture: a stored single-chunk record whose only token is
`dog`. -/
def exampleDoc : Rec :=
  { id := "p_0".toList, parent_id := "p".toList, content := "dog".toList,
    tokens := ["dog".toList], tf_vector := [("dog".toList, 1)],
    metadata := [], chunk_index := 0, total_chunks := 1 }

/-- Test fixture: a query sharing its only term with `exampleDoc`. -/
def exampleQuery : Str := "dog".toList

/-- Test fixture: the hit produced for `exampleDoc`. -/
def exampleHit : Result :=
  { id := "p_0".toList, content := "dog".toList, similarity := 1, metadata := [] }

/-- Test fixture for the C3 counterexample: a 463-word text. -/
def bigText : Str := joinSpace (List.replicate 463 ['w', 'w'])

/-! Lemmas about characters and `words`. -/

/-- Lowering a character leaves the upper-case range. -/
lemma toLower_not_upper (c : Char) : ¬(65 ≤ c.toLower.toNat ∧ c.toLower.toNat ≤ 90) := by
  simp only [Char.toLower]
  by_cases h : c.toNat ≥ 65 ∧ c.toNat ≤ 90
  · rw [if_pos h]
    obtain ⟨h1, h2⟩ := h
    generalize hn : c.toNat = n at h1 h2
    interval_cases n <;> decide
  · rw [if_neg h]
    exact h

/-- Lowering is the identity off the upper-case range. -/
lemma toLower_eq_self {c : Char} (h : ¬(65 ≤ c.toNat ∧ c.toNat ≤ 90)) :
    Char.toLower c = c := by
  simp only [Char.toLower]
  exact if_neg h

/-- Lowering is idempotent. -/
lemma toLower_toLower (c : Char) : Char.toLower (Char.toLower c) = Char.toLower c :=
  toLower_eq_self (toLower_not_upper c)

/-- Every word produced by `words` is non-empty and free of whitespace. -/
lemma words_forall (s : Str) : ∀ w ∈ words s, w ≠ [] ∧ ∀ c ∈ w, isWS c = false := by
  induction s using words.induct with
  | case1 => intro w hw; simp [words] at hw
  | case2 c h =>
    intro w hw
    simp [words, if_pos h] at hw
  | case3 c h =>
    intro w hw
    simp only [words, if_neg h, List.mem_singleton] at hw
    subst hw
    refine ⟨by simp, ?_⟩
    intro x hx
    simp only [List.mem_singleton] at hx
    subst hx
    simpa using h
  | case4 c d s h ih =>
    intro w hw
    simp only [words, if_pos h] at hw
    exact ih w hw
  | case5 c d s h heq ih =>
    intro w hw
    simp only [words, if_neg h, heq, List.mem_singleton] at hw
    subst hw
    refine ⟨by simp, ?_⟩
    intro x hx
    simp only [List.mem_singleton] at hx
    subst hx
    simpa using h
  | case6 c d s h w ws heq hd ih =>
    intro u hu
    simp only [words, if_neg h, heq, if_pos hd, List.mem_cons] at hu
    rcases hu with hu | hu
    · subst hu
      refine ⟨by simp, ?_⟩
      intro x hx
      simp only [List.mem_singleton] at hx
      subst hx
      simpa using h
    · exact ih u (by rw [heq, List.mem_cons]; exact hu)
  | case7 c d s h w ws heq hd ih =>
    intro u hu
    simp only [words, if_neg h, heq, if_neg hd, List.mem_cons] at hu
    rcases hu with hu | hu
    · subst hu
      have hw := ih w (by rw [heq]; exact List.mem_cons_self _ _)
      refine ⟨by simp, ?_⟩
      intro x hx
      rcases List.mem_cons.mp hx with hx | hx
      · subst hx; simpa using h
      · exact hw.2 x hx
    · exact ih u (by rw [heq]; exact List.mem_cons_of_mem _ hu)

/-- Every character of a word of `words s` is a character of `s`. -/
lemma words_chars (s : Str) : ∀ w ∈ words s, ∀ c ∈ w, c ∈ s := by
  induction s using words.induct with
  | case1 => intro w hw; simp [words] at hw
  | case2 c h => intro w hw; simp [words, if_pos h] at hw
  | case3 c h =>
    intro w hw
    simp only [words, if_neg h, List.mem_singleton] at hw
    subst hw
    intro x hx
    simpa using hx
  | case4 c d s h ih =>
    intro w hw x hx
    simp only [words, if_pos h] at hw
    exact List.mem_cons_of_mem _ (ih w hw x hx)
  | case5 c d s h heq ih =>
    intro w hw x hx
    simp only [words, if_neg h, heq, List.mem_singleton] at hw
    subst hw
    simp only [List.mem_singleton] at hx
    subst hx
    exact List.mem_cons_self _ _
  | case6 c d s h w ws heq hd ih =>
    intro u hu x hx
    simp only [words, if_neg h, heq, if_pos hd, List.mem_cons] at hu
    rcases hu with hu | hu
    · subst hu
      simp only [List.mem_singleton] at hx
      subst hx
      exact List.mem_cons_self _ _
    · exact List.mem_cons_of_mem _ (ih u (by rw [heq, List.mem_cons]; exact hu) x hx)
  | case7 c d s h w ws heq hd ih =>
    intro u hu x hx
    simp only [words, if_neg h, heq, if_neg hd, List.mem_cons] at hu
    rcases hu with hu | hu
    · subst hu
      rcases List.mem_cons.mp hx with hx | hx
      · subst hx; exact List.mem_cons_self _ _
      · exact List.mem_cons_of_mem _
          (ih w (by rw [heq]; exact List.mem_cons_self _ _) x hx)
    · exact List.mem_cons_of_mem _
        (ih u (by rw [heq]; exact List.mem_cons_of_mem _ hu) x hx)

/-- Splitting a whitespace-free non-empty string yields that string. -/
lemma words_all_nonWS (s : Str) (hne : s ≠ []) (hs : ∀ c ∈ s, isWS c = false) :
    words s = [s] := by
  induction s with
  | nil => exact absurd rfl hne
  | cons c t ih =>
    have hc : isWS c = false := hs c (List.mem_cons_self _ _)
    cases t with
    | nil => simp [words, hc]
    | cons d t' =>
      have hrec : words (d :: t') = [d :: t'] :=
        ih (by simp) (fun x hx => hs x (List.mem_cons_of_mem _ hx))
      have hd : isWS d = false := hs d (by simp)
      simp [words, hc, hrec, hd]

/-- Splitting a word followed by a space and a remainder. -/
lemma words_word_space (w : Str) (s : Str) (hne : w ≠ [])
    (hw : ∀ c ∈ w, isWS c = false) :
    words (w ++ ' ' :: s) = w :: words s := by
  induction w with
  | nil => exact absurd rfl hne
  | cons c t ih =>
    have hc : isWS c = false := hw c (List.mem_cons_self _ _)
    cases t with
    | nil =>
      show words (c :: ' ' :: s) = [c] :: words s
      have hsp : isWS ' ' = true := by decide
      cases hrec : words (' ' :: s) with
      | nil =>
        have : words (' ' :: s) = words s := by
          cases s with
          | nil => simp [words, hsp]
          | cons e u => simp [words, hsp]
        simp only [words, hc, Bool.false_eq_true, if_neg, hrec]
        rw [this] at hrec
        simp [hrec]
      | cons w0 ws0 =>
        have : words (' ' :: s) = words s := by
          cases s with
          | nil => simp [words, hsp]
          | cons e u => simp [words, hsp]
        simp only [words, hc, Bool.false_eq_true, if_neg, hrec, hsp, if_pos]
        rw [this] at hrec
        simp [hrec]
    | cons d t' =>
      have hd : isWS d = false := hw d (by simp)
      have hrec : words ((d :: t') ++ ' ' :: s) = (d :: t') :: words s :=
        ih (by simp) (fun x hx => hw x (List.mem_cons_of_mem _ hx))
      show words (c :: (d :: t') ++ ' ' :: s) = (c :: d :: t') :: words s
      simp only [List.cons_append] at hrec ⊢
      simp [words, hc, hrec, hd]

/-- Splitting the space-joined concatenation of non-empty whitespace-free
words recovers exactly those words. -/
lemma words_joinSpace (ws : List Str)
    (h : ∀ w ∈ ws, w ≠ [] ∧ ∀ c ∈ w, isWS c = false) :
    words (joinSpace ws) = ws := by
  induction ws with
  | nil => simp [joinSpace, words]
  | cons w rest ih =>
    cases rest with
    | nil =>
      have hw := h w (List.mem_cons_self _ _)
      simpa [joinSpace] using words_all_nonWS w hw.1 hw.2
    | cons v rest' =>
      have hw := h w (List.mem_cons_self _ _)
      have hrest : words (joinSpace (v :: rest')) = v :: rest' :=
        ih (fun u hu => h u (List.mem_cons_of_mem _ hu))
      show words (w ++ ' ' :: joinSpace (v :: rest')) = w :: v :: rest'
      rw [words_word_space w _ hw.1 hw.2, hrest]

/-- Membership in a space-joined list of words. -/
lemma mem_joinSpace {c : Char} {ws : List Str} (hc : c ∈ joinSpace ws) :
    c = ' ' ∨ ∃ w ∈ ws, c ∈ w := by
  induction ws with
  | nil => simp [joinSpace] at hc
  | cons w rest ih =>
    cases rest with
    | nil =>
      right
      exact ⟨w, List.mem_cons_self _ _, by simpa [joinSpace] using hc⟩
    | cons v rest' =>
      rw [show joinSpace (w :: v :: rest') = w ++ ' ' :: joinSpace (v :: rest') from rfl]
        at hc
      rcases List.mem_append.mp hc with hc | hc
      · exact Or.inr ⟨w, List.mem_cons_self _ _, hc⟩
      · rcases List.mem_cons.mp hc with hc | hc
        · exact Or.inl hc
        · rcases ih hc with hc | ⟨u, hu, hcu⟩
          · exact Or.inl hc
          · exact Or.inr ⟨u, List.mem_cons_of_mem _ hu, hcu⟩

/-- A member word contributes its characters to the space-join. -/
lemma subset_joinSpace {c : Char} {w : Str} {ws : List Str} (hw : w ∈ ws) (hc : c ∈ w) :
    c ∈ joinSpace ws := by
  induction ws with
  | nil => simp at hw
  | cons u rest ih =>
    cases rest with
    | nil =>
      simp only [List.mem_singleton] at hw
      subst hw
      simpa [joinSpace] using hc
    | cons v rest' =>
      show c ∈ u ++ ' ' :: joinSpace (v :: rest')
      rcases List.mem_cons.mp hw with hw | hw
      · subst hw; exact List.mem_append.mpr (Or.inl hc)
      · exact List.mem_append.mpr (Or.inr (List.mem_cons_of_mem _ (ih hw)))

/-- Mapping a function that fixes every element is the identity. -/
lemma map_eq_self {α : Type} {f : α → α} {l : List α} (h : ∀ x ∈ l, f x = x) :
    l.map f = l := by
  induction l with
  | nil => rfl
  | cons a t ih =>
    simp only [List.map_cons, h a (List.mem_cons_self _ _),
      ih (fun x hx => h x (List.mem_cons_of_mem _ hx))]

/-! Lemmas about the tokenizer. -/

/-- After substitution every character is a word character or whitespace. -/
lemma subNonWord_chars {c : Char} {s : Str} (hc : c ∈ subNonWord s) :
    (isWordChar c || isWS c) = true := by
  rcases List.mem_map.mp hc with ⟨x, _, hx⟩
  by_cases h : (isWordChar x || isWS x) = true
  · rw [← hx]; simpa [h]
  · rw [← hx]; simp [h]; decide

/-- Substitution only introduces spaces or keeps characters. -/
lemma subNonWord_mem {c : Char} {s : Str} (hc : c ∈ subNonWord s) :
    c = ' ' ∨ c ∈ s := by
  rcases List.mem_map.mp hc with ⟨x, hxs, hx⟩
  by_cases h : (isWordChar x || isWS x) = true
  · right
    rw [← hx]
    simpa [subNonWord, h] using hxs
  · left
    rw [← hx]
    simp [h]

/-- Characters of a lowered string are fixed by lowering. -/
lemma lowerStr_mem {c : Char} {s : Str} (hc : c ∈ lowerStr s) :
    Char.toLower c = c := by
  rcases List.mem_map.mp hc with ⟨x, _, hx⟩
  rw [← hx]
  exact toLower_toLower x

/-- Properties of every emitted token: not a stopword, length above one,
non-empty, and each character is a non-whitespace lowercase-stable word
character. -/
lemma tokenize_mem {t : Str} {text : Str} (ht : t ∈ tokenize text) :
    t ∉ stopwords ∧ 1 < t.length ∧ t ≠ [] ∧
      ∀ c ∈ t, isWordChar c = true ∧ isWS c = false ∧ Char.toLower c = c := by
  have hpred := (List.mem_filter.mp ht).2
  have htw : t ∈ words (subNonWord (lowerStr text)) := (List.mem_filter.mp ht).1
  simp only [Bool.and_eq_true, decide_eq_true_eq] at hpred
  have hforall := words_forall _ t htw
  refine ⟨hpred.1, hpred.2, hforall.1, ?_⟩
  intro c hc
  have hnws : isWS c = false := hforall.2 c hc
  have hcu : c ∈ subNonWord (lowerStr text) := words_chars _ t htw c hc
  have hword : isWordChar c = true := by
    have := subNonWord_chars hcu
    simpa [hnws] using this
  refine ⟨hword, hnws, ?_⟩
  rcases subNonWord_mem hcu with hsp | hmem
  · subst hsp; exact absurd hnws (by decide)
  · exact lowerStr_mem hmem

/-- Re-tokenizing the space-joined token list is the identity: the
normalization pass of `_tokenize` is idempotent. -/
lemma tokenize_idempotent (text : Str) :
    tokenize (joinSpace (tokenize text)) = tokenize text := by
  set ts := tokenize text with hts
  have hfix : ∀ c ∈ joinSpace ts, Char.toLower c = c ∧ (isWordChar c || isWS c) = true := by
    intro c hc
    rcases mem_joinSpace hc with hsp | ⟨w, hw, hcw⟩
    · subst hsp
      constructor
      · decide
      · decide
    · have := (tokenize_mem hw).2.2.2 c hcw
      exact ⟨this.2.2, by simp [this.1]⟩
  have hlower : lowerStr (joinSpace ts) = joinSpace ts :=
    map_eq_self (fun c hc => (hfix c hc).1)
  have hsub : subNonWord (joinSpace ts) = joinSpace ts :=
    map_eq_self (fun c hc => by simp [(hfix c hc).2])
  have hwords : words (joinSpace ts) = ts :=
    words_joinSpace ts (fun w hw => ⟨(tokenize_mem hw).2.2.1,
      fun c hc => (tokenize_mem hw).2.2.2 c hc |>.2.1⟩)
  unfold tokenize
  rw [hlower, hsub, hwords]
  apply List.filter_eq_self.mpr
  intro t ht
  have ht2 : t ∈ tokenize text := hts ▸ ht
  unfold tokenize at ht2
  exact (List.mem_filter.mp ht2).2

/-! Lemmas about the counting dictionary and `_compute_tf`. -/

/-- Lookup of an absent key yields the default. -/
lemma getD0_not_mem {α : Type} {z : α} {v : List (Str × α)} {t : Str}
    (h : t ∉ keysOf v) : getD0 z v t = z := by
  induction v with
  | nil => rfl
  | cons p rest ih =>
    obtain ⟨k, x⟩ := p
    have hk : ¬(k = t) := fun hk => h (List.mem_cons.mpr (Or.inl hk.symm))
    have hrest : t ∉ keysOf rest := fun hm => h (List.mem_cons.mpr (Or.inr hm))
    simp only [getD0, if_neg hk]
    exact ih hrest

/-- With distinct keys, lookup of an entry key yields its value. -/
lemma getD0_entry {α : Type} {z : α} {v : List (Str × α)}
    (hnd : (keysOf v).Nodup) : ∀ p ∈ v, getD0 z v p.1 = p.2 := by
  induction v with
  | nil => intro p hp; simp at hp
  | cons q rest ih =>
    intro p hp
    cases q with
    | mk k x =>
      simp only [keysOf, List.map_cons, List.nodup_cons] at hnd
      rcases List.mem_cons.mp hp with hp | hp
      · subst hp; simp [getD0]
      · have hne : k ≠ p.1 := by
          intro hk
          exact hnd.1 (hk ▸ List.mem_map_of_mem Prod.fst hp)
        simp only [getD0, if_neg hne]
        exact ih hnd.2 p hp

/-- Keys after one bump: unchanged if present, appended otherwise. -/
lemma bump_keys (l : List (Str × ℕ)) (t : Str) :
    keysOf (bump l t) = if t ∈ keysOf l then keysOf l else keysOf l ++ [t] := by
  induction l with
  | nil => simp [bump, keysOf]
  | cons p rest ih =>
    obtain ⟨k, n⟩ := p
    by_cases hk : k = t
    · subst hk
      simp [bump, keysOf]
    · have hne : ¬(t = k) := fun h => hk h.symm
      simp only [bump, if_neg hk, keysOf, List.map_cons] at ih ⊢
      rw [ih]
      by_cases ht : t ∈ List.map Prod.fst rest
      · rw [if_pos ht, if_pos (List.mem_cons.mpr (Or.inr ht))]
      · rw [if_neg ht, if_neg (by simp [hne, ht]), List.cons_append]

/-- Lookup after one bump: incremented at the bumped key. -/
lemma bump_getD0 (l : List (Str × ℕ)) (t k : Str) :
    getD0 0 (bump l t) k = getD0 0 l k + (if k = t then 1 else 0) := by
  induction l with
  | nil =>
    by_cases hk : k = t
    · subst hk; simp [bump, getD0]
    · have hne : ¬(t = k) := fun h => hk h.symm
      simp [bump, getD0, hk, hne]
  | cons p rest ih =>
    obtain ⟨k0, n⟩ := p
    by_cases h0 : k0 = t
    · subst h0
      by_cases hk : k0 = k
      · subst hk; simp [bump, getD0]
      · have hne : ¬(k = k0) := fun h => hk h.symm
        simp [bump, getD0, hk, hne]
    · by_cases hk : k0 = k
      · subst hk
        have hne : ¬(k0 = t) := h0
        simp [bump, getD0, h0, hne]
      · simp [bump, getD0, h0, hk, ih]

/-- Folding the counting step accumulates occurrence counts. -/
lemma foldl_bump_getD0 (l : List Str) :
    ∀ (acc : List (Str × ℕ)) (k : Str),
      getD0 0 (l.foldl bump acc) k = getD0 0 acc k + l.count k := by
  induction l with
  | nil => intro acc k; simp
  | cons t rest ih =>
    intro acc k
    simp only [List.foldl_cons, ih (bump acc t) k, bump_getD0]
    rw [List.count_cons]
    by_cases hk : k = t
    · subst hk; simp; omega
    · have hne : ¬(t = k) := fun h => hk h.symm
      simp [hk, hne]

/-- Folding the counting step keeps keys distinct. -/
lemma foldl_bump_nodup (l : List Str) :
    ∀ acc : List (Str × ℕ), (keysOf acc).Nodup → (keysOf (l.foldl bump acc)).Nodup := by
  induction l with
  | nil => intro acc h; simpa using h
  | cons t rest ih =>
    intro acc h
    simp only [List.foldl_cons]
    apply ih
    rw [bump_keys]
    by_cases ht : t ∈ keysOf acc
    · simpa [ht] using h
    · rw [if_neg ht]
      simp [List.nodup_append, h, ht]

/-- Keys produced by folding come from the accumulator or the input. -/
lemma foldl_bump_keys_mem (l : List Str) :
    ∀ (acc : List (Str × ℕ)) (k : Str),
      k ∈ keysOf (l.foldl bump acc) → k ∈ keysOf acc ∨ k ∈ l := by
  induction l with
  | nil => intro acc k h; exact Or.inl h
  | cons t rest ih =>
    intro acc k h
    rcases ih (bump acc t) k h with h2 | h2
    · rw [bump_keys] at h2
      by_cases ht : t ∈ keysOf acc
      · rw [if_pos ht] at h2; exact Or.inl h2
      · rw [if_neg ht] at h2
        rcases List.mem_append.mp h2 with h3 | h3
        · exact Or.inl h3
        · simp only [List.mem_singleton] at h3
          exact Or.inr (h3 ▸ List.mem_cons_self _ _)
    · exact Or.inr (List.mem_cons_of_mem _ h2)

/-- The counting dictionary has distinct keys. -/
lemma counts_nodup (l : List Str) : (keysOf (counts l)).Nodup :=
  foldl_bump_nodup l [] (by simp [keysOf])

/-- The counting dictionary realizes `List.count`. -/
lemma counts_getD0 (l : List Str) (k : Str) : getD0 0 (counts l) k = l.count k := by
  simpa [getD0] using foldl_bump_getD0 l [] k

/-- Membership in the counting dictionary keys is occurrence in the input. -/
lemma counts_keys_mem (l : List Str) (k : Str) : k ∈ keysOf (counts l) ↔ k ∈ l := by
  constructor
  · intro h
    rcases foldl_bump_keys_mem l [] k h with h2 | h2
    · simp [keysOf] at h2
    · exact h2
  · intro h
    by_contra hk
    have h0 := getD0_not_mem (v := counts l) (z := (0 : ℕ)) hk
    rw [counts_getD0] at h0
    have hpos : 0 < l.count k := List.count_pos_iff.mpr h
    omega

/-- Every entry of the counting dictionary pairs a key of the input with
its occurrence count. -/
lemma counts_entries (l : List Str) :
    ∀ p ∈ counts l, p.1 ∈ l ∧ p.2 = l.count p.1 := by
  intro p hp
  have hk : p.1 ∈ keysOf (counts l) := List.mem_map_of_mem Prod.fst hp
  refine ⟨(counts_keys_mem l p.1).mp hk, ?_⟩
  have := getD0_entry (z := (0 : ℕ)) (counts_nodup l) p hp
  rw [counts_getD0] at this
  exact this.symm

/-- The empty token list yields the empty mapping. -/
lemma computeTF_nil : computeTF [] = [] := by simp [computeTF]

/-- Keys of the term-frequency mapping are those of the counting
dictionary. -/
lemma keysOf_computeTF (l : List Str) (h : l.length ≠ 0) :
    keysOf (computeTF l) = keysOf (counts l) := by
  simp only [computeTF, if_neg h, keysOf, List.map_map]
  rfl

/-- Every entry of `_compute_tf` is an input token paired with its
relative frequency. -/
lemma computeTF_entries (l : List Str) :
    ∀ p ∈ computeTF l, p.1 ∈ l ∧ p.2 = (l.count p.1 : ℚ) / (l.length : ℚ) := by
  intro p hp
  by_cases h : l.length = 0
  · rw [computeTF, if_pos h] at hp
    simp at hp
  · rw [computeTF, if_neg h] at hp
    rcases List.mem_map.mp hp with ⟨q, hq, hpq⟩
    have := counts_entries l q hq
    rw [← hpq]
    exact ⟨this.1, by rw [this.2]⟩

/-- Mappings built by `_compute_tf` are well-formed. -/
lemma computeTF_isTF (l : List Str) : IsTF (computeTF l) := by
  constructor
  · by_cases h : l.length = 0
    · simp [computeTF, h, keysOf]
    · rw [keysOf_computeTF l h]
      exact counts_nodup l
  · intro p hp
    rw [(computeTF_entries l p hp).2]
    positivity

/-! Lemmas about `firstDedup`. -/

/-- Deduplication preserves membership. -/
lemma mem_firstDedup (x : Str) (l : List Str) : x ∈ firstDedup l ↔ x ∈ l := by
  induction l with
  | nil => simp [firstDedup]
  | cons a t ih =>
    simp only [firstDedup, List.mem_cons, List.mem_filter, ih]
    constructor
    · rintro (h | ⟨h, _⟩)
      · exact Or.inl h
      · exact Or.inr h
    · rintro (h | h)
      · exact Or.inl h
      · by_cases hxa : x = a
        · exact Or.inl hxa
        · exact Or.inr ⟨h, by simpa using hxa⟩

/-- Deduplication produces distinct elements. -/
lemma nodup_firstDedup (l : List Str) : (firstDedup l).Nodup := by
  induction l with
  | nil => simp [firstDedup]
  | cons a t ih =>
    simp only [firstDedup, List.nodup_cons]
    refine ⟨fun h => ?_, List.Nodup.filter _ ih⟩
    have := (List.mem_filter.mp h).2
    simp at this

/-- Deduplication preserves the underlying finite set. -/
lemma toFinset_firstDedup (l : List Str) : (firstDedup l).toFinset = l.toFinset := by
  ext x
  simp [List.mem_toFinset, mem_firstDedup]

/-! Lemmas about the similarity scorer. -/

/-- Squared magnitudes are non-negative. -/
lemma magSq_nonneg (v : List (Str × ℚ)) : 0 ≤ magSq v := by
  apply List.sum_nonneg
  intro x hx
  rcases List.mem_map.mp hx with ⟨p, _, hp⟩
  rw [← hp]
  positivity

/-- Lookup in a mapping with non-negative values is non-negative. -/
lemma getv_nonneg {v : List (Str × ℚ)} (h : ∀ p ∈ v, 0 ≤ p.2) (t : Str) :
    0 ≤ getv v t := by
  induction v with
  | nil => simp [getv, getD0]
  | cons p rest ih =>
    obtain ⟨k, x⟩ := p
    show 0 ≤ getD0 0 ((k, x) :: rest) t
    rw [getD0]
    by_cases hk : k = t
    · rw [if_pos hk]
      exact h (k, x) (List.mem_cons_self _ _)
    · rw [if_neg hk]
      exact ih (fun q hq => h q (List.mem_cons_of_mem _ hq))

/-- Lookup of an absent key is zero. -/
lemma getv_not_mem {v : List (Str × ℚ)} {t : Str} (h : t ∉ keysOf v) :
    getv v t = 0 := getD0_not_mem h

/-- The dot product as a finite sum over the union of the key sets. -/
lemma dot_eq_sum (a b : List (Str × ℚ)) :
    dot a b = ∑ t ∈ ((keysOf a).toFinset ∪ (keysOf b).toFinset), getv a t * getv b t := by
  rw [dot, ← List.sum_toFinset _ (nodup_firstDedup _), toFinset_firstDedup,
    List.toFinset_append]

/-- The squared magnitude as a finite sum over any key superset. -/
lemma magSq_eq_sum {v : List (Str × ℚ)} (hnd : (keysOf v).Nodup) {S : Finset Str}
    (hS : (keysOf v).toFinset ⊆ S) :
    magSq v = ∑ t ∈ S, getv v t ^ 2 := by
  have h1 : magSq v = ∑ t ∈ (keysOf v).toFinset, getv v t ^ 2 := by
    have hmap : v.map (fun p => p.2 ^ 2) = (keysOf v).map (fun k => getv v k ^ 2) := by
      rw [keysOf, List.map_map]
      apply List.map_congr_left
      intro p hp
      simp only [Function.comp_apply]
      rw [getv, getD0_entry hnd p hp]
    rw [magSq, hmap, ← List.sum_toFinset _ hnd]
  rw [h1]
  apply Finset.sum_subset hS
  intro t _ ht
  rw [getv_not_mem (fun hm => ht (List.mem_toFinset.mpr hm))]
  norm_num

/-- Real-valued version of `dot_eq_sum`. -/
lemma dot_eq_sumR (a b : List (Str × ℚ)) :
    ((dot a b : ℚ) : ℝ) =
      ∑ t ∈ ((keysOf a).toFinset ∪ (keysOf b).toFinset),
        ((getv a t : ℚ) : ℝ) * ((getv b t : ℚ) : ℝ) := by
  rw [dot_eq_sum]
  push_cast
  rfl

/-- Real-valued version of `magSq_eq_sum`. -/
lemma magSq_eq_sumR {v : List (Str × ℚ)} (hnd : (keysOf v).Nodup) {S : Finset Str}
    (hS : (keysOf v).toFinset ⊆ S) :
    ((magSq v : ℚ) : ℝ) = ∑ t ∈ S, ((getv v t : ℚ) : ℝ) ^ 2 := by
  rw [magSq_eq_sum hnd hS]
  push_cast
  rfl

/-- The zero test of the source on `sqrt` is the zero test on the squared
magnitude. -/
lemma sqrt_magSq_eq_zero_iff (v : List (Str × ℚ)) :
    Real.sqrt (magSq v) = 0 ↔ magSq v = 0 := by
  rw [Real.sqrt_eq_zero']
  constructor
  · intro h
    exact le_antisymm (by exact_mod_cast h) (magSq_nonneg v)
  · intro h
    rw [h]
    exact le_of_eq (by norm_num)

/-- Unfolding of `cosine` when both magnitudes are non-zero. -/
lemma cosine_of_ne {a b : List (Str × ℚ)} (ha : magSq a ≠ 0) (hb : magSq b ≠ 0) :
    cosine a b =
      (dot a b : ℝ) / (Real.sqrt (magSq a) * Real.sqrt (magSq b)) := by
  rw [cosine, if_neg]
  push_neg
  constructor
  · intro h
    exact ha ((sqrt_magSq_eq_zero_iff a).mp h)
  · intro h
    exact hb ((sqrt_magSq_eq_zero_iff b).mp h)

/-- Cosine against a zero-magnitude vector is zero. -/
lemma cosine_of_right_zero {a b : List (Str × ℚ)} (hb : magSq b = 0) :
    cosine a b = 0 := by
  rw [cosine, if_pos]
  right
  rw [sqrt_magSq_eq_zero_iff]
  exact_mod_cast hb

/-- Cosine against a zero-magnitude vector is zero (left version). -/
lemma cosine_of_left_zero {a b : List (Str × ℚ)} (ha : magSq a = 0) :
    cosine a b = 0 := by
  rw [cosine, if_pos]
  left
  rw [sqrt_magSq_eq_zero_iff]
  exact_mod_cast ha

/-- Cosine of any vector against the empty mapping is zero. -/
lemma cosine_empty (v : List (Str × ℚ)) : cosine v [] = 0 :=
  cosine_of_right_zero (by simp [magSq])

/-- Cosine similarity is symmetric. -/
lemma cosine_comm (a b : List (Str × ℚ)) : cosine a b = cosine b a := by
  by_cases ha : magSq a = 0
  · rw [cosine_of_left_zero ha, cosine_of_right_zero ha]
  · by_cases hb : magSq b = 0
    · rw [cosine_of_right_zero hb, cosine_of_left_zero hb]
    · rw [cosine_of_ne ha hb, cosine_of_ne hb ha]
      have hdot : dot a b = dot b a := by
        rw [dot_eq_sum, dot_eq_sum, Finset.union_comm]
        exact Finset.sum_congr rfl (fun t _ => mul_comm _ _)
      rw [hdot, mul_comm]

/-- Cosine similarity is non-negative for mappings with non-negative
values. -/
lemma cosine_nonneg {a b : List (Str × ℚ)} (ha : ∀ p ∈ a, 0 ≤ p.2)
    (hb : ∀ p ∈ b, 0 ≤ p.2) : 0 ≤ cosine a b := by
  by_cases h1 : magSq a = 0
  · rw [cosine_of_left_zero h1]
  · by_cases h2 : magSq b = 0
    · rw [cosine_of_right_zero h2]
    · rw [cosine_of_ne h1 h2]
      apply div_nonneg
      · have : (0 : ℚ) ≤ dot a b := by
          rw [dot_eq_sum]
          apply Finset.sum_nonneg
          intro t _
          exact mul_nonneg (getv_nonneg ha t) (getv_nonneg hb t)
        exact_mod_cast this
      · exact mul_nonneg (Real.sqrt_nonneg _) (Real.sqrt_nonneg _)

/-- Cauchy-Schwarz: cosine similarity never exceeds one for well-formed
mappings. -/
lemma cosine_le_one {a b : List (Str × ℚ)} (ha : IsTF a) (hb : IsTF b) :
    cosine a b ≤ 1 := by
  by_cases h1 : magSq a = 0
  · rw [cosine_of_left_zero h1]; norm_num
  · by_cases h2 : magSq b = 0
    · rw [cosine_of_right_zero h2]; norm_num
    · rw [cosine_of_ne h1 h2]
      set U := (keysOf a).toFinset ∪ (keysOf b).toFinset with hU
      have hma : ((magSq a : ℚ) : ℝ) = ∑ t ∈ U, ((getv a t : ℚ) : ℝ) ^ 2 :=
        magSq_eq_sumR ha.1 Finset.subset_union_left
      have hmb : ((magSq b : ℚ) : ℝ) = ∑ t ∈ U, ((getv b t : ℚ) : ℝ) ^ 2 :=
        magSq_eq_sumR hb.1 Finset.subset_union_right
      have hcs := Real.sum_mul_le_sqrt_mul_sqrt U
        (fun t => ((getv a t : ℚ) : ℝ)) (fun t => ((getv b t : ℚ) : ℝ))
      rw [← hma, ← hmb, ← dot_eq_sumR] at hcs
      have hpos : 0 < Real.sqrt (magSq a) * Real.sqrt (magSq b) := by
        apply mul_pos
        · apply Real.sqrt_pos.mpr
          have := magSq_nonneg a
          have : (0 : ℝ) ≤ (magSq a : ℝ) := by exact_mod_cast this
          rcases lt_or_eq_of_le this with h | h
          · exact h
          · exact absurd (by exact_mod_cast h.symm) h1
        · apply Real.sqrt_pos.mpr
          have := magSq_nonneg b
          have : (0 : ℝ) ≤ (magSq b : ℝ) := by exact_mod_cast this
          rcases lt_or_eq_of_le this with h | h
          · exact h
          · exact absurd (by exact_mod_cast h.symm) h2
      exact div_le_one_of_le₀ hcs (le_of_lt hpos)

/-- Self-similarity of a non-zero well-formed mapping is one. -/
lemma cosine_self {v : List (Str × ℚ)} (hnd : (keysOf v).Nodup)
    (hv : magSq v ≠ 0) : cosine v v = 1 := by
  rw [cosine_of_ne hv hv]
  have hdot : dot v v = magSq v := by
    rw [dot_eq_sum, Finset.union_self,
      magSq_eq_sum hnd (le_refl (keysOf v).toFinset)]
    exact Finset.sum_congr rfl (fun t _ => (sq (getv v t)).symm
      |> fun h => by rw [sq])
  rw [hdot]
  have hnn : (0 : ℝ) ≤ (magSq v : ℝ) := by exact_mod_cast magSq_nonneg v
  rw [Real.mul_self_sqrt hnn]
  apply div_self
  exact_mod_cast hv

/-- The disjoint-support case: the dot product vanishes, hence so does the
cosine. -/
lemma cosine_of_disjoint {a b : List (Str × ℚ)}
    (h : ∀ t ∈ keysOf a, t ∉ keysOf b) : cosine a b = 0 := by
  have hdot : dot a b = 0 := by
    rw [dot_eq_sum]
    apply Finset.sum_eq_zero
    intro t ht
    rcases Finset.mem_union.mp ht with ht | ht
    · rw [getv_not_mem (h t (List.mem_toFinset.mp ht))]
      ring
    · by_cases hta : t ∈ keysOf a
      · rw [getv_not_mem (h t hta)]
        ring
      · rw [getv_not_mem hta]
        ring
  by_cases h1 : magSq a = 0
  · exact cosine_of_left_zero h1
  · by_cases h2 : magSq b = 0
    · exact cosine_of_right_zero h2
    · rw [cosine_of_ne h1 h2, hdot]
      norm_num

/-- The source and the spec formula agree for well-formed mappings. -/
lemma cosine_eq_spec {a b : List (Str × ℚ)} (ha : IsTF a) (hb : IsTF b) :
    cosine a b = cosineSpec a b := by
  rw [cosine, cosineSpec]
  have hma : ((magSq a : ℚ) : ℝ) =
      ∑ t ∈ ((keysOf a).toFinset ∪ (keysOf b).toFinset), ((getv a t : ℚ) : ℝ) ^ 2 :=
    magSq_eq_sumR ha.1 Finset.subset_union_left
  have hmb : ((magSq b : ℚ) : ℝ) =
      ∑ t ∈ ((keysOf a).toFinset ∪ (keysOf b).toFinset), ((getv b t : ℚ) : ℝ) ^ 2 :=
    magSq_eq_sumR hb.1 Finset.subset_union_right
  rw [← hma, ← hmb, ← dot_eq_sumR]

/-! Lemmas about the chunker. -/

/-- A string with a non-whitespace character does not strip to empty. -/
lemma stripWS_ne_nil {s : Str} {c : Char} (hc : c ∈ s) (hws : isWS c = false) :
    stripWS s ≠ [] := by
  intro h
  rw [stripWS] at h
  have h1 : (((s.dropWhile isWS).reverse).dropWhile isWS) = [] := by
    simpa using h
  have h2 : ∀ x ∈ (s.dropWhile isWS).reverse, isWS x = true :=
    List.dropWhile_eq_nil_iff.mp h1
  have h3 : ∀ x ∈ s.dropWhile isWS, isWS x = true := by
    intro x hx
    exact h2 x (List.mem_reverse.mpr hx)
  have h4 : ∀ x ∈ s, isWS x = true := by
    intro x hx
    rw [← List.takeWhile_append_dropWhile (p := isWS) (l := s)] at hx
    rcases List.mem_append.mp hx with hx | hx
    · exact List.mem_takeWhile_imp hx
    · exact h3 x hx
  rw [h4 c hc] at hws
  exact absurd hws (by decide)

/-- The space-join of a non-empty list of non-empty whitespace-free words
does not strip to empty. -/
lemma stripWS_joinSpace_ne_nil {ws : List Str}
    (h : ∀ w ∈ ws, w ≠ [] ∧ ∀ c ∈ w, isWS c = false) (hne : ws ≠ []) :
    stripWS (joinSpace ws) ≠ [] := by
  cases ws with
  | nil => exact absurd rfl hne
  | cons w rest =>
    obtain ⟨hwne, hwws⟩ := h w (List.mem_cons_self _ _)
    cases w with
    | nil => exact absurd rfl hwne
    | cons c w0 =>
      apply stripWS_ne_nil (c := c)
      · exact subset_joinSpace (List.mem_cons_self _ _) (List.mem_cons_self _ _)
      · exact hwws c (List.mem_cons_self _ _)

/-- Division step identity for the chunk loop. -/
lemma chunk_count_step {d step : ℕ} (hstep : 0 < step) (hd : 1 ≤ d) :
    (d + step - 1) / step = (d - step + step - 1) / step + 1 := by
  have h1 : d + step - 1 = (d - 1) + step := by omega
  rw [h1, Nat.add_div_right _ hstep]
  congr 1
  by_cases hds : d ≤ step
  · have e1 : d - 1 < step := by omega
    have e2 : d - step + step - 1 = step - 1 := by omega
    rw [Nat.div_eq_of_lt e1, e2, Nat.div_eq_of_lt (by omega)]
  · have e2 : d - step + step - 1 = (d - step - 1) + step := by omega
    have e3 : d - 1 = (d - 1 - step) + step := by omega
    have e4 : d - step - 1 = d - 1 - step := by omega
    rw [e2, Nat.add_div_right _ hstep, e3, Nat.add_div_right _ hstep, e4]

/-- Closed form of the chunk loop: the windows at starts `start`,
`start + (size-overlap)`, `start + 2*(size-overlap)`, … while the start is
below the word count, each window being the `size` words from its start
joined by single spaces, with blank windows dropped. -/
lemma chunkFrom_eq (size overlap : ℕ) (hov : overlap < size) (ws : List Str) :
    ∀ start, chunkFrom size overlap hov ws start =
      ((List.range' start
          ((ws.length - start + (size - overlap) - 1) / (size - overlap))
          (size - overlap)).map
        (fun s => joinSpace ((ws.drop s).take size))).filter
        (fun c => !(stripWS c).isEmpty) := by
  have hstep : 0 < size - overlap := by omega
  suffices H : ∀ m start, ws.length - start ≤ m →
      chunkFrom size overlap hov ws start =
        ((List.range' start
            ((ws.length - start + (size - overlap) - 1) / (size - overlap))
            (size - overlap)).map
          (fun s => joinSpace ((ws.drop s).take size))).filter
          (fun c => !(stripWS c).isEmpty) by
    exact fun start => H (ws.length - start) start le_rfl
  intro m
  induction m with
  | zero =>
    intro start h
    have hge : ¬ start < ws.length := by omega
    rw [chunkFrom, dif_neg hge]
    have he : ws.length - start + (size - overlap) - 1 = (size - overlap) - 1 := by omega
    rw [he, Nat.div_eq_of_lt (by omega)]
    simp
  | succ m ih =>
    intro start h
    by_cases hs : start < ws.length
    · rw [chunkFrom, dif_pos hs]
      have hrec := ih (start + (size - overlap)) (by omega)
      have hcount : (ws.length - start + (size - overlap) - 1) / (size - overlap)
          = (ws.length - (start + (size - overlap)) + (size - overlap) - 1) /
              (size - overlap) + 1 := by
        have hd : 1 ≤ ws.length - start := by omega
        have hsub : ws.length - (start + (size - overlap))
            = ws.length - start - (size - overlap) := by omega
        rw [hsub]
        exact chunk_count_step hstep hd
      rw [hcount, List.range'_succ, List.map_cons, List.filter_cons, hrec]
      by_cases hc : stripWS (joinSpace ((ws.drop start).take size)) = []
      · rw [if_pos hc]
        have : (!(stripWS (joinSpace ((ws.drop start).take size))).isEmpty) = false := by
          simp [hc]
        rw [this]
        simp
      · rw [if_neg hc]
        have : (!(stripWS (joinSpace ((ws.drop start).take size))).isEmpty) = true := by
          simp [List.isEmpty_iff, hc]
        rw [this]
        simp
    · rw [chunkFrom, dif_neg hs]
      have he : ws.length - start + (size - overlap) - 1 = (size - overlap) - 1 := by
        omega
      rw [he, Nat.div_eq_of_lt (by omega)]
      simp

/-- The chunk loop emits nothing at or past the word count. -/
lemma chunkFrom_past (size overlap : ℕ) (hov : overlap < size) (ws : List Str)
    {start : ℕ} (h : ¬ start < ws.length) :
    chunkFrom size overlap hov ws start = [] := by
  rw [chunkFrom, dif_neg h]

/-- Chunking never produces an empty list. -/
lemma chunkTextP_ne_nil (size overlap : ℕ) (hov : overlap < size) (t : Str) :
    chunkTextP size overlap hov t ≠ [] := by
  rw [chunkTextP]
  by_cases h : chunkFrom size overlap hov (words t) 0 = []
  · simp [h]
  · simp [h]

/-- Chunking a text with no words falls back to the original text. -/
lemma chunkText_no_words {t : Str} (h : words t = []) : chunkText t = [t] := by
  rw [chunkText, chunkTextP, chunkFrom_past _ _ _ _ (by simp [h])]
  simp

/-- Chunking a text of at most `size - overlap = 462` words yields exactly
the single chunk of all its words joined by single spaces. -/
lemma chunkText_single {t : Str} (h1 : words t ≠ [])
    (h2 : (words t).length ≤ 462) :
    chunkText t = [joinSpace (words t)] := by
  have hcount : ((words t).length - 0 + (512 - 50) - 1) / (512 - 50) = 1 := by
    have hpos : 0 < (words t).length := List.length_pos.mpr h1
    omega
  have heq := chunkFrom_eq 512 50 (by decide) (words t) 0
  rw [hcount] at heq
  have hone : List.range' 0 1 (512 - 50) = [0] := by decide
  rw [hone] at heq
  have hwin : List.take 512 (words t) = words t := List.take_of_length_le (by omega)
  have hne := stripWS_joinSpace_ne_nil (words_forall t) h1
  rw [chunkText, chunkTextP, heq]
  simp [hwin, hne]

/-! Lemmas about `search`. -/

/-- Characterization of the loop body. -/
lemma scoreDoc_eq_some {queryTF : List (Str × ℚ)} {d : Rec} {r : Result} :
    scoreDoc queryTF d = some r ↔
      cosine queryTF d.tf_vector > 1 / 100 ∧
      r = { id := d.id, content := d.content,
            similarity := round4 (cosine queryTF d.tf_vector),
            metadata := d.metadata } := by
  rw [scoreDoc]
  split_ifs with h
  · constructor
    · intro hr
      exact ⟨h, (Option.some_inj.mp hr).symm⟩
    · intro hr
      rw [hr.2]
  · constructor
    · intro hr
      exact absurd hr (by simp)
    · intro hr
      exact absurd hr.1 h

/-- Soundness of search results. -/
lemma mem_search {docs : List Rec} {q : Str} {topk : ℕ} {r : Result}
    (hr : r ∈ search docs q topk) :
    ∃ d ∈ docs, cosine (computeTF (tokenize q)) d.tf_vector > 1 / 100 ∧
      r = { id := d.id, content := d.content,
            similarity := round4 (cosine (computeTF (tokenize q)) d.tf_vector),
            metadata := d.metadata } := by
  have h1 : r ∈ List.insertionSort simGE
      (docs.filterMap (scoreDoc (computeTF (tokenize q)))) :=
    List.mem_of_mem_take hr
  have h2 : r ∈ docs.filterMap (scoreDoc (computeTF (tokenize q))) :=
    (List.perm_insertionSort simGE _).mem_iff.mp h1
  rcases List.mem_filterMap.mp h2 with ⟨d, hd, hscore⟩
  exact ⟨d, hd, scoreDoc_eq_some.mp hscore⟩

/-- Search results are sorted by descending similarity. -/
lemma sorted_search (docs : List Rec) (q : Str) (topk : ℕ) :
    List.Sorted simGE (search docs q topk) :=
  List.Pairwise.sublist (List.take_sublist _ _) (List.sorted_insertionSort simGE _)

/-- Search returns at most `top_k` results. -/
lemma length_search_le (docs : List Rec) (q : Str) (topk : ℕ) :
    (search docs q topk).length ≤ topk :=
  List.length_take_le _ _

/-- A query with no term in common with any stored vector returns no
results. -/
lemma search_disjoint {docs : List Rec} {q : Str} {topk : ℕ}
    (h : ∀ d ∈ docs, ∀ t ∈ keysOf (computeTF (tokenize q)), t ∉ keysOf d.tf_vector) :
    search docs q topk = [] := by
  have hnone : docs.filterMap (scoreDoc (computeTF (tokenize q))) = [] := by
    rw [List.filterMap_eq_nil_iff]
    intro d hd
    rw [scoreDoc]
    have hcos : cosine (computeTF (tokenize q)) d.tf_vector = 0 :=
      cosine_of_disjoint (h d hd)
    rw [if_neg]
    rw [hcos]
    norm_num
  rw [search, hnone]
  simp

/-- Without truncation, membership in the result list is exactly the
admission test on the unrounded similarity. -/
lemma mem_search_all {docs : List Rec} {q : Str} (r : Result) :
    r ∈ search docs q docs.length ↔
      ∃ d ∈ docs, cosine (computeTF (tokenize q)) d.tf_vector > 1 / 100 ∧
        r = { id := d.id, content := d.content,
              similarity := round4 (cosine (computeTF (tokenize q)) d.tf_vector),
              metadata := d.metadata } := by
  have hlen : (List.insertionSort simGE
      (docs.filterMap (scoreDoc (computeTF (tokenize q))))).length ≤ docs.length := by
    rw [(List.perm_insertionSort simGE _).length_eq]
    exact List.length_filterMap_le _ _
  rw [search, List.take_of_length_le hlen]
  rw [(List.perm_insertionSort simGE _).mem_iff, List.mem_filterMap]
  constructor
  · rintro ⟨d, hd, hscore⟩
    exact ⟨d, hd, scoreDoc_eq_some.mp hscore⟩
  · rintro ⟨d, hd, hcond⟩
    exact ⟨d, hd, scoreDoc_eq_some.mpr hcond⟩

/-! Lemmas about `delete_document`. -/

/-- The filtered list is shorter exactly when some element fails the
predicate. -/
lemma filter_length_lt_iff {α : Type} (p : α → Bool) (l : List α) :
    (l.filter p).length < l.length ↔ ∃ x ∈ l, p x = false := by
  induction l with
  | nil => simp
  | cons a t ih =>
    rw [List.filter_cons]
    by_cases hp : p a = true
    · rw [if_pos hp]
      simp only [List.length_cons, Nat.add_lt_add_iff_right, ih, List.mem_cons]
      constructor
      · rintro ⟨x, hx, hpx⟩
        exact ⟨x, Or.inr hx, hpx⟩
      · rintro ⟨x, hx | hx, hpx⟩
        · subst hx
          rw [hp] at hpx
          exact absurd hpx (by decide)
        · exact ⟨x, hx, hpx⟩
    · rw [if_neg hp]
      constructor
      · intro _
        exact ⟨a, List.mem_cons_self _ _, by simpa using hp⟩
      · intro _
        have := List.length_filter_le p t
        simp only [List.length_cons]
        omega

/-- The filtered list differs from the original exactly when some element
fails the predicate. -/
lemma filter_ne_iff {α : Type} (p : α → Bool) (l : List α) :
    l.filter p ≠ l ↔ ∃ x ∈ l, p x = false := by
  constructor
  · intro h
    by_contra hc
    push_neg at hc
    refine h (List.filter_eq_self.mpr ?_)
    intro a ha
    cases hb : p a with
    | false => exact absurd hb (hc a ha)
    | true => rfl
  · intro ⟨x, hx, hpx⟩ h
    have : (l.filter p).length < l.length := (filter_length_lt_iff p l).mpr ⟨x, hx, hpx⟩
    rw [h] at this
    omega

/-! Lemmas about `get_all_documents`. -/

/-- Deduplication commutes with filtering. -/
lemma firstDedup_filter (q : Str → Bool) (l : List Str) :
    firstDedup (l.filter q) = (firstDedup l).filter q := by
  induction l with
  | nil => simp [firstDedup]
  | cons a t ih =>
    rw [List.filter_cons]
    by_cases hq : q a = true
    · rw [if_pos hq]
      show a :: (firstDedup (t.filter q)).filter (fun x => !(x == a)) =
        (a :: (firstDedup t).filter (fun x => !(x == a))).filter q
      rw [List.filter_cons, if_pos hq, ih, List.filter_filter, List.filter_filter]
      congr 1
      apply List.filter_congr
      intro x _
      rw [Bool.and_comm]
    · rw [if_neg hq]
      show firstDedup (t.filter q) =
        (a :: (firstDedup t).filter (fun x => !(x == a))).filter q
      rw [List.filter_cons, if_neg hq, ih, List.filter_filter]
      apply List.filter_congr
      intro x _
      by_cases hx : x = a
      · subst hx
        simp [hq]
      · simp [hx]

/-- The ids listed by the `seen` loop are the parent ids in first-seen
order, those already seen excluded. -/
lemma gadAux_map_id (docs : List Rec) :
    ∀ seen : List Str, (gadAux docs seen).map (fun s => s.id)
      = firstDedup ((docs.map (fun d => d.parent_id)).filter
          (fun p => decide (p ∉ seen))) := by
  induction docs with
  | nil => intro seen; simp [gadAux, firstDedup]
  | cons d rest ih =>
    intro seen
    rw [gadAux, List.map_cons, List.filter_cons]
    by_cases hd : d.parent_id ∈ seen
    · rw [if_pos hd]
      have : decide (d.parent_id ∉ seen) = false := by simp [hd]
      rw [this]
      simp only [Bool.false_eq_true, if_neg]
      exact ih seen
    · rw [if_neg hd]
      have : decide (d.parent_id ∉ seen) = true := by simp [hd]
      rw [this]
      simp only [if_pos]
      show (mkSummary d).id :: (gadAux rest (d.parent_id :: seen)).map (fun s => s.id)
        = d.parent_id :: (firstDedup ((rest.map (fun r => r.parent_id)).filter
            (fun p => decide (p ∉ seen)))).filter (fun x => !(x == d.parent_id))
      rw [ih (d.parent_id :: seen)]
      congr 1
      rw [← firstDedup_filter, List.filter_filter]
      congr 1
      apply List.filter_congr
      intro x _
      by_cases hx : x = d.parent_id
      · subst hx
        simp
      · simp [hx, List.mem_cons]

/-- Every summary is built from the first stored record carrying its
parent id. -/
lemma gadAux_find (docs : List Rec) :
    ∀ seen : List Str, ∀ s ∈ gadAux docs seen,
      s.id ∉ seen ∧ ∃ d, docs.find? (fun d2 => d2.parent_id == s.id) = some d ∧
        s = mkSummary d := by
  induction docs with
  | nil => intro seen s hs; simp [gadAux] at hs
  | cons d rest ih =>
    intro seen s hs
    rw [gadAux] at hs
    by_cases hd : d.parent_id ∈ seen
    · rw [if_pos hd] at hs
      obtain ⟨hnot, d2, hfind, hsum⟩ := ih seen s hs
      refine ⟨hnot, d2, ?_, hsum⟩
      rw [List.find?_cons_of_neg, hfind]
      have : d.parent_id ≠ s.id := fun h => hnot (h ▸ hd)
      simpa using this
    · rw [if_neg hd] at hs
      rcases List.mem_cons.mp hs with hs | hs
      · subst hs
        refine ⟨hd, d, ?_, rfl⟩
        rw [List.find?_cons_of_pos]
        simp [mkSummary]
      · obtain ⟨hnot, d2, hfind, hsum⟩ := ih (d.parent_id :: seen) s hs
        have hne : s.id ≠ d.parent_id := fun h => hnot (h ▸ List.mem_cons_self _ _)
        refine ⟨fun h => hnot (List.mem_cons_of_mem _ h), d2, ?_, hsum⟩
        rw [List.find?_cons_of_neg, hfind]
        simpa using fun h => hne h.symm

/-! Lemmas about the query formatting. -/

/-- The parts loop enumerates hits, numbering from one. -/
lemma formatParts_eq (fmt : ℝ → Str) :
    ∀ (rs : List Result) (i : ℕ),
      formatParts fmt i rs = (List.enumFrom (i + 1) rs).map
        (fun p => "[Doc ".toList ++ (Nat.repr p.1).toList ++ "] (Relevancia: ".toList ++
          fmt p.2.similarity ++ ")\n".toList ++ p.2.content) := by
  intro rs
  induction rs with
  | nil => intro i; rfl
  | cons r rest ih =>
    intro i
    rw [formatParts, List.enumFrom, List.map_cons, ← ih (i + 1)]
    rfl

/-! Concrete evaluation of a one-document store, used to exercise the
theorems below on explicit inputs. -/

/-- The term-frequency vector of the example query. -/
lemma exampleQuery_tf : computeTF (tokenize exampleQuery) = [("dog".toList, 1)] := by
  have h1 : tokenize exampleQuery = ["dog".toList] := by decide
  rw [h1, computeTF]
  norm_num [counts, bump]

/-- The example document scores similarity one against the example
query. -/
lemma exampleDoc_cos :
    cosine (computeTF (tokenize exampleQuery)) exampleDoc.tf_vector = 1 := by
  rw [exampleQuery_tf]
  show cosine [("dog".toList, 1)] [("dog".toList, 1)] = 1
  apply cosine_self
  · decide
  · norm_num [magSq]

/-- Rounding one to four decimals gives one. -/
lemma round4_one : round4 1 = 1 := by
  rw [round4, one_mul]
  rw [show ((10000 : ℝ)) = ((10000 : ℤ) : ℝ) by norm_num, round_intCast]
  norm_num

/-- The loop body keeps the example document with similarity one. -/
lemma exampleHit_score :
    scoreDoc (computeTF (tokenize exampleQuery)) exampleDoc = some exampleHit := by
  apply scoreDoc_eq_some.mpr
  constructor
  · rw [exampleDoc_cos]
    norm_num
  · rw [exampleDoc_cos, round4_one]
    rfl

/-- Searching the one-document example store returns exactly the example
hit for any positive `top_k`. -/
lemma search_example {k : ℕ} (hk : 1 ≤ k) :
    search [exampleDoc] exampleQuery k = [exampleHit] := by
  rw [search]
  have h1 : List.filterMap (scoreDoc (computeTF (tokenize exampleQuery))) [exampleDoc]
      = [exampleHit] := by
    rw [List.filterMap_cons, exampleHit_score]
    rfl
  rw [h1]
  obtain ⟨m, rfl⟩ : ∃ m, k = m + 1 := ⟨k - 1, by omega⟩
  simp [List.insertionSort, List.orderedInsert]

/-! The claims. -/

/-- C2: for term-frequency mappings the cosine similarity lies in [0,1],
equals the spec formula over the union of the key sets of both maps with absent
keys treated as zero (returning 0 whenever either magnitude is 0, with no
division by zero), is symmetric, is 0 against the empty mapping, and is 1
on any non-zero mapping against itself. -/
theorem cosine_props (a b v : List (Str × ℚ)) (ha : IsTF a) (hb : IsTF b)
    (hv : IsTF v) :
    0 ≤ cosine a b ∧ cosine a b ≤ 1 ∧ cosine a b = cosineSpec a b ∧
    cosine a b = cosine b a ∧ cosine v [] = 0 ∧
    (magSq v ≠ 0 → cosine v v = 1) :=
  ⟨cosine_nonneg ha.2 hb.2, cosine_le_one ha hb, cosine_eq_spec ha hb,
   cosine_comm a b, cosine_empty v, fun h => cosine_self hv.1 h⟩

/-- Witness for C2 at the one-term unit mapping. -/
theorem cosine_props_witness :
    cosine [("dog".toList, (1 : ℚ))] [("dog".toList, (1 : ℚ))] = 1 ∧
    cosine [("dog".toList, (1 : ℚ))] [] = 0 := by
  have h := cosine_props [("dog".toList, (1 : ℚ))] [("dog".toList, (1 : ℚ))]
    [("dog".toList, (1 : ℚ))] (by decide) (by decide) (by decide)
  exact ⟨h.2.2.2.2.2 (by norm_num [magSq]), h.2.2.2.2.1⟩

/-- C5: tokenization emits no stopword, no token of length at most one and
no token containing a non-word character, and re-normalizing the
space-joined output of the tokenizer yields the same token sequence. -/
theorem tokenize_clean_idempotent (text : Str) :
    (∀ t ∈ tokenize text, t ∉ stopwords ∧ 1 < t.length ∧
        ∀ c ∈ t, isWordChar c = true) ∧
    tokenize (joinSpace (tokenize text)) = tokenize text :=
  ⟨fun t ht => ⟨(tokenize_mem ht).1, (tokenize_mem ht).2.1,
      fun c hc => ((tokenize_mem ht).2.2.2 c hc).1⟩,
   tokenize_idempotent text⟩

/-- Witness for C5 on a text with a stopword and punctuation. -/
theorem tokenize_clean_idempotent_witness :
    ("cat".toList ∉ stopwords ∧ 1 < ("cat".toList).length ∧
      ∀ c ∈ ("cat".toList), isWordChar c = true) ∧
    tokenize (joinSpace (tokenize ("The cat!".toList)))
      = tokenize ("The cat!".toList) :=
  ⟨(tokenize_clean_idempotent ("The cat!".toList)).1 ("cat".toList) (by decide),
   (tokenize_clean_idempotent ("The cat!".toList)).2⟩

/-- C1: every search result comes from a stored chunk whose similarity
against the query vector strictly exceeds 0.01, carrying the id of that chunk,
content and metadata and the rounded similarity; the result list is sorted
in descending order of its similarity values and has at most `top_k`
entries; and a query sharing no term with any stored vector returns the
empty list. -/
theorem search_correct (docs : List Rec) (q : Str) (topk : ℕ) :
    (∀ r ∈ search docs q topk, ∃ d ∈ docs,
        cosine (computeTF (tokenize q)) d.tf_vector > 1 / 100 ∧
        r = { id := d.id, content := d.content,
              similarity := round4 (cosine (computeTF (tokenize q)) d.tf_vector),
              metadata := d.metadata }) ∧
    List.Sorted simGE (search docs q topk) ∧
    (search docs q topk).length ≤ topk ∧
    ((∀ d ∈ docs, ∀ t ∈ keysOf (computeTF (tokenize q)), t ∉ keysOf d.tf_vector) →
      search docs q topk = []) :=
  ⟨fun _ hr => mem_search hr, sorted_search docs q topk,
   length_search_le docs q topk, fun h => search_disjoint h⟩

/-- Witness for C1: a query disjoint from the stored vocabulary returns
nothing. -/
theorem search_correct_witness :
    search [exampleDoc] ("cat".toList) 5 = [] :=
  (search_correct [exampleDoc] ("cat".toList) 5).2.2.2 (by decide)

/-- C10: every returned similarity is the cosine rounded to four decimal
places, the ranking is sorted on those rounded values, and (before
truncation) membership is decided by the strict 0.01 threshold on the
unrounded cosine. -/
theorem search_rounding (docs : List Rec) (q : Str) (topk : ℕ) :
    (∀ r ∈ search docs q topk, ∃ d ∈ docs,
        r.similarity = round4 (cosine (computeTF (tokenize q)) d.tf_vector) ∧
        cosine (computeTF (tokenize q)) d.tf_vector > 1 / 100) ∧
    List.Sorted (fun x y : ℝ => y ≤ x)
      ((search docs q topk).map (fun r => r.similarity)) ∧
    (∀ r : Result, r ∈ search docs q docs.length ↔ ∃ d ∈ docs,
        cosine (computeTF (tokenize q)) d.tf_vector > 1 / 100 ∧
        r = { id := d.id, content := d.content,
              similarity := round4 (cosine (computeTF (tokenize q)) d.tf_vector),
              metadata := d.metadata }) := by
  refine ⟨?_, ?_, fun r => mem_search_all r⟩
  · intro r hr
    rcases mem_search hr with ⟨d, hd, hcos, hr⟩
    exact ⟨d, hd, by rw [hr], hcos⟩
  · exact List.pairwise_map.mpr (sorted_search docs q topk)

/-- Witness for C10: the example document is admitted with rounded
similarity one. -/
theorem search_rounding_witness : exampleHit ∈ search [exampleDoc] exampleQuery 1 := by
  apply ((search_rounding [exampleDoc] exampleQuery 1).2.2 exampleHit).mpr
  refine ⟨exampleDoc, List.mem_cons_self _ _, ?_, ?_⟩
  · rw [exampleDoc_cos]
    norm_num
  · rw [exampleDoc_cos, round4_one]
    rfl

/-- C6: under the precondition `overlap < size` the chunk loop is total
and equals the finite list of windows whose starts advance by exactly
`size - overlap` (462 at the defaults `size = 512`, `overlap = 50`) until
the start reaches the word count, each window being the `size` words from
its start joined by single spaces, blank windows skipped. -/
theorem chunk_loop_windows (size overlap : ℕ) (hov : overlap < size) (ws : List Str)
    (start : ℕ) :
    chunkFrom size overlap hov ws start =
      ((List.range' start
          ((ws.length - start + (size - overlap) - 1) / (size - overlap))
          (size - overlap)).map
        (fun s => joinSpace ((ws.drop s).take size))).filter
        (fun c => !(stripWS c).isEmpty) ∧
    chunkFrom 512 50 (by decide) ws start =
      ((List.range' start ((ws.length - start + 461) / 462) 462).map
        (fun s => joinSpace ((ws.drop s).take 512))).filter
        (fun c => !(stripWS c).isEmpty) :=
  ⟨chunkFrom_eq size overlap hov ws start,
   chunkFrom_eq 512 50 (by decide) ws start⟩

/-- Witness for C6 at a five-word list with window size 3 and overlap 1. -/
theorem chunk_loop_windows_witness :
    chunkFrom 3 1 (by decide) [['a'], ['b'], ['c'], ['d'], ['e']] 0 =
      ((List.range' 0 ((5 - 0 + (3 - 1) - 1) / (3 - 1)) (3 - 1)).map
        (fun s => joinSpace (([['a'], ['b'], ['c'], ['d'], ['e']].drop s).take 3))).filter
        (fun c => !(stripWS c).isEmpty) := by
  have h := (chunk_loop_windows 3 1 (by decide) [['a'], ['b'], ['c'], ['d'], ['e']] 0).1
  simpa using h

/-- C3 (amended): a text of at most `size - overlap = 462` words chunks to
exactly one chunk, namely the whole text when the text has no words and
otherwise its words joined by single spaces (hence the whole text whenever
the text is already single-space separated, e.g. empty or one word); and
chunking never yields zero chunks. -/
theorem chunk_few_words (t : Str) :
    ((words t).length ≤ 512 - 50 →
      chunkText t = if words t = [] then [t] else [joinSpace (words t)]) ∧
    chunkText t ≠ [] := by
  constructor
  · intro hlen
    by_cases h : words t = []
    · rw [if_pos h]
      exact chunkText_no_words h
    · rw [if_neg h]
      exact chunkText_single h (by omega)
  · exact chunkTextP_ne_nil 512 50 (by decide) t

/-- Witness for C3 on the empty text and a one-word text. -/
theorem chunk_few_words_witness :
    chunkText ("hi".toList) = ["hi".toList] ∧ chunkText [] = [[]] := by
  constructor
  · have h := (chunk_few_words ("hi".toList)).1 (by decide)
    rw [h]
    decide
  · have h := (chunk_few_words []).1 (by decide)
    rw [h]
    decide

/-- The words of the 463-word fixture. -/
lemma words_bigText : words bigText = List.replicate 463 ['w', 'w'] := by
  apply words_joinSpace
  intro w hw
  have hw2 := List.eq_of_mem_replicate hw
  subst hw2
  exact ⟨by decide, by decide⟩

/-- The 463-word fixture produces two chunks. -/
lemma chunkText_bigText : (chunkText bigText).length = 2 := by
  have hws : words bigText = List.replicate 463 ['w', 'w'] := words_bigText
  have hlen : (words bigText).length = 463 := by
    rw [hws, List.length_replicate]
  have hcount : ((words bigText).length - 0 + (512 - 50) - 1) / (512 - 50) = 2 := by
    rw [hlen]
  have heq := chunkFrom_eq 512 50 (by decide) (words bigText) 0
  rw [hcount] at heq
  have hr : List.range' 0 2 (512 - 50) = [0, 462] := by decide
  rw [hr] at heq
  simp only [List.map_cons, List.map_nil] at heq
  have h0 : ((words bigText).drop 0).take 512 = List.replicate 463 ['w', 'w'] := by
    rw [hws, List.drop_zero, List.take_replicate]
    norm_num
  have h1 : ((words bigText).drop 462).take 512 = List.replicate 1 ['w', 'w'] := by
    rw [hws, List.drop_replicate, List.take_replicate]
    norm_num
  rw [h0, h1] at heq
  have hrep : ∀ n : ℕ, ∀ w ∈ List.replicate n ['w', 'w'],
      w ≠ [] ∧ ∀ c ∈ w, isWS c = false := by
    intro n w hw
    have hw2 := List.eq_of_mem_replicate hw
    subst hw2
    exact ⟨by decide, by decide⟩
  have k0 : stripWS (joinSpace (List.replicate 463 ['w', 'w'])) ≠ [] :=
    stripWS_joinSpace_ne_nil (hrep 463)
      (List.ne_nil_of_length_pos (by rw [List.length_replicate]; norm_num))
  have k1 : stripWS (joinSpace (List.replicate 1 ['w', 'w'])) ≠ [] :=
    stripWS_joinSpace_ne_nil (hrep 1)
      (List.ne_nil_of_length_pos (by rw [List.length_replicate]; norm_num))
  have hfil : List.filter (fun c => !(stripWS c).isEmpty)
      [joinSpace (List.replicate 463 ['w', 'w']),
        joinSpace (List.replicate 1 ['w', 'w'])]
      = [joinSpace (List.replicate 463 ['w', 'w']),
          joinSpace (List.replicate 1 ['w', 'w'])] := by
    apply List.filter_eq_self.mpr
    intro a ha
    rcases List.mem_cons.mp ha with h | h
    · subst h
      rw [List.isEmpty_eq_false.mpr k0]
      rfl
    · rcases List.mem_cons.mp h with h | h
      · subst h
        rw [List.isEmpty_eq_false.mpr k1]
        rfl
      · exact absurd h (List.not_mem_nil a)
  rw [chunkText, chunkTextP, heq, hfil, if_neg (List.cons_ne_nil _ _)]
  rfl

/-- Counterexample to C3 as stated: a text with irregular whitespace (two
words, far fewer than 512) chunks to the single-space normalized string,
not the whole text; and a 463-word text (still fewer than 512 words)
produces two chunks rather than one. -/
theorem chunk_few_words_counterexample :
    ((words ("a  b".toList)).length < 512 ∧
      chunkText ("a  b".toList) ≠ ["a  b".toList]) ∧
    ((words bigText).length < 512 ∧ chunkText bigText ≠ [bigText]) := by
  constructor
  · refine ⟨by decide, ?_⟩
    have h := chunkText_single (t := "a  b".toList) (by decide) (by decide)
    rw [h]
    decide
  · refine ⟨by rw [words_bigText, List.length_replicate]; norm_num, ?_⟩
    intro hcon
    have h2 := chunkText_bigText
    rw [hcon] at h2
    exact absurd h2 (by norm_num)

/-- C4: every record appended by `add_document` has id
`<parent_id>_<index>`, a chunk index below the total chunk count of that
call, term-frequency keys among its tokens, each value being occurrence
count over total token count, with the empty token list giving the empty
mapping. -/
theorem add_document_invariants (hash : Str → Str) (docs : List Rec) (content : Str)
    (meta : Metadata) :
    ∀ r ∈ (addDocument hash docs content meta).1.drop docs.length,
      r.id = r.parent_id ++ '_' :: (Nat.repr r.chunk_index).toList ∧
      r.chunk_index < r.total_chunks ∧
      r.total_chunks = (chunkText content).length ∧
      (∀ t ∈ keysOf r.tf_vector, t ∈ r.tokens) ∧
      (∀ p ∈ r.tf_vector, p.2 = (r.tokens.count p.1 : ℚ) / (r.tokens.length : ℚ)) ∧
      (r.tokens = [] → r.tf_vector = []) := by
  intro r hr
  have hdrop : (addDocument hash docs content meta).1.drop docs.length
      = (chunkText content).enum.map
          (fun p => mkRecord (hash content) meta (chunkText content).length p.1 p.2) := by
    rw [addDocument]
    exact List.drop_left _ _
  rw [hdrop] at hr
  rcases List.mem_map.mp hr with ⟨p, hp, hpr⟩
  subst hpr
  have hip : p.1 < (chunkText content).length := List.fst_lt_of_mem_enum hp
  refine ⟨rfl, hip, rfl, ?_, ?_, ?_⟩
  · intro t ht
    rcases List.mem_map.mp ht with ⟨q, hq, hqt⟩
    rw [← hqt]
    exact (computeTF_entries _ q hq).1
  · intro q hq
    exact (computeTF_entries _ q hq).2
  · intro h0
    show computeTF (tokenize p.2) = []
    have h0t : tokenize p.2 = [] := h0
    rw [h0t, computeTF_nil]

/-- Witness for C4 on a two-word document. -/
theorem add_document_invariants_witness :
    (mkRecord ("h".toList) [] 1 0 ("dog cat".toList)).chunk_index
        < (mkRecord ("h".toList) [] 1 0 ("dog cat".toList)).total_chunks ∧
    ∀ p ∈ (mkRecord ("h".toList) [] 1 0 ("dog cat".toList)).tf_vector,
      p.2 = (((mkRecord ("h".toList) [] 1 0 ("dog cat".toList)).tokens.count p.1 : ℚ)
        / ((mkRecord ("h".toList) [] 1 0 ("dog cat".toList)).tokens.length : ℚ)) := by
  have hch : chunkText ("dog cat".toList) = ["dog cat".toList] := by
    rw [chunkText_single (by decide) (by decide)]
    decide
  have hmem : mkRecord ("h".toList) [] 1 0 ("dog cat".toList)
      ∈ (addDocument (fun _ => "h".toList) [] ("dog cat".toList) []).1.drop 0 := by
    simp only [addDocument, List.nil_append, List.drop_zero]
    rw [hch]
    simp only [List.enum, List.enumFrom, List.map_cons, List.map_nil,
      List.length_cons, List.length_nil]
    exact List.mem_singleton.mpr rfl
  have h := add_document_invariants (fun _ => "h".toList) [] ("dog cat".toList) []
    (mkRecord ("h".toList) [] 1 0 ("dog cat".toList)) hmem
  exact ⟨h.2.1, h.2.2.2.2.1⟩

/-- C7: deletion keeps, in their original order, exactly the records whose
parent id and own id both differ from the argument; the boolean (which is
both the return value and the save indicator) is true exactly when
something was removed, equivalently exactly when the record sequence
changed. -/
theorem delete_document_correct (docs : List Rec) (docId : Str) :
    (deleteDocument docs docId).1 =
        docs.filter (fun d => decide (¬(d.parent_id = docId ∨ d.id = docId))) ∧
    ((deleteDocument docs docId).2 = true ↔
        ∃ d ∈ docs, d.parent_id = docId ∨ d.id = docId) ∧
    ((deleteDocument docs docId).2 = true ↔ (deleteDocument docs docId).1 ≠ docs) := by
  have hpred : ∀ d : Rec, (!(d.parent_id == docId) && !(d.id == docId))
      = decide (¬(d.parent_id = docId ∨ d.id = docId)) := by
    intro d
    by_cases h1 : d.parent_id = docId
    · simp [h1]
    · by_cases h2 : d.id = docId
      · simp [h1, h2]
      · simp [h1, h2]
  have hfail : ∀ d : Rec,
      ((!(d.parent_id == docId) && !(d.id == docId)) = false
        ↔ (d.parent_id = docId ∨ d.id = docId)) := by
    intro d
    rw [hpred d]
    simp only [decide_eq_false_iff_not, not_not]
  refine ⟨List.filter_congr (fun d _ => hpred d), ?_, ?_⟩
  · show decide ((docs.filter _).length < docs.length) = true ↔ _
    rw [decide_eq_true_iff, filter_length_lt_iff]
    constructor
    · rintro ⟨d, hd, hf⟩
      exact ⟨d, hd, (hfail d).mp hf⟩
    · rintro ⟨d, hd, hf⟩
      exact ⟨d, hd, (hfail d).mpr hf⟩
  · show decide ((docs.filter _).length < docs.length) = true ↔ _
    rw [decide_eq_true_iff, filter_length_lt_iff]
    constructor
    · rintro ⟨d, hd, hf⟩
      exact (filter_ne_iff _ docs).mpr ⟨d, hd, hf⟩
    · intro h
      exact (filter_ne_iff _ docs).mp h

/-- Witness for C7: deleting the example document by parent id empties the
store and reports a removal. -/
theorem delete_document_correct_witness :
    (deleteDocument [exampleDoc] ("p".toList)).1 = [] ∧
    (deleteDocument [exampleDoc] ("p".toList)).2 = true := by
  have h := delete_document_correct [exampleDoc] ("p".toList)
  refine ⟨?_, h.2.1.mpr ⟨exampleDoc, List.mem_cons_self _ _, Or.inl rfl⟩⟩
  rw [h.1]
  rw [List.filter_cons, List.filter_nil, if_neg]
  simp [exampleDoc]

/-- C8: re-adding identical content yields the same parent id and appends
a second full set of chunk records (no deduplication, never zero chunks);
listing emits exactly one summary per distinct parent id, in first-seen
order, built from the first stored record carrying that parent id. -/
theorem ingest_no_dedup (hash : Str → Str) (docs : List Rec) (content : Str)
    (m m2 : Metadata) :
    (addDocument hash docs content m).2
        = (addDocument hash (addDocument hash docs content m).1 content m2).2 ∧
    (addDocument hash (addDocument hash docs content m).1 content m2).1
        = (addDocument hash docs content m).1 ++
          (chunkText content).enum.map
            (fun p => mkRecord (hash content) m2 (chunkText content).length p.1 p.2) ∧
    0 < (chunkText content).length ∧
    (∀ docs2 : List Rec,
      (getAllDocuments docs2).map (fun s => s.id)
          = firstDedup (docs2.map (fun d => d.parent_id)) ∧
      ((getAllDocuments docs2).map (fun s => s.id)).Nodup ∧
      ∀ s ∈ getAllDocuments docs2, ∃ d,
        docs2.find? (fun d2 => d2.parent_id == s.id) = some d ∧ s = mkSummary d) := by
  refine ⟨rfl, rfl, ?_, ?_⟩
  · exact List.length_pos.mpr (chunkTextP_ne_nil 512 50 (by decide) content)
  · intro docs2
    have hids : (getAllDocuments docs2).map (fun s => s.id)
        = firstDedup (docs2.map (fun d => d.parent_id)) := by
      rw [getAllDocuments, gadAux_map_id docs2 []]
      congr 1
      apply List.filter_eq_self.mpr
      intro a _
      simp
    refine ⟨hids, by rw [hids]; exact nodup_firstDedup _, ?_⟩
    intro s hs
    obtain ⟨_, d, hfind, hsum⟩ := gadAux_find docs2 [] s hs
    exact ⟨d, hfind, hsum⟩

/-- Witness for C8: double ingestion of the same content and the listing
of the example store. -/
theorem ingest_no_dedup_witness :
    (addDocument (fun _ => "h".toList) [] ("dog".toList) []).2
        = (addDocument (fun _ => "h".toList)
            (addDocument (fun _ => "h".toList) [] ("dog".toList) []).1
            ("dog".toList) []).2 ∧
    (∃ d, [exampleDoc].find? (fun d2 => d2.parent_id == (mkSummary exampleDoc).id)
        = some d ∧ mkSummary exampleDoc = mkSummary d) := by
  have h := ingest_no_dedup (fun _ => "h".toList) [] ("dog".toList) [] []
  refine ⟨h.1, ?_⟩
  apply (h.2.2.2 [exampleDoc]).2.2 (mkSummary exampleDoc)
  exact List.mem_cons_self _ _

/-- C9: the facade query returns the empty string when search returns
nothing, and otherwise the hits formatted as
`[Doc i] (Relevancia: …)⏎content` with `i` counting from one in rank
order, joined by the fixed separator — in particular a single hit carries
no trailing separator. -/
theorem query_format (fmt : ℝ → Str) (docs : List Rec) (question : Str) (topk : ℕ) :
    (search docs question topk = [] → ragQuery fmt docs question topk = []) ∧
    (∀ r : Result, search docs question topk = [r] →
      ragQuery fmt docs question topk =
        "[Doc 1] (Relevancia: ".toList ++ fmt r.similarity ++ ")\n".toList
          ++ r.content) ∧
    (search docs question topk ≠ [] →
      ragQuery fmt docs question topk =
        joinWith querySep ((List.enumFrom 1 (search docs question topk)).map
          (fun p => "[Doc ".toList ++ (Nat.repr p.1).toList
            ++ "] (Relevancia: ".toList ++ fmt p.2.similarity ++ ")\n".toList
            ++ p.2.content))) := by
  refine ⟨?_, ?_, ?_⟩
  · intro h
    rw [ragQuery]
    simp [h]
  · intro r h
    rw [ragQuery]
    simp only [h]
    rw [if_neg (by simp)]
    show joinWith querySep (formatParts fmt 0 [r]) = _
    rw [formatParts_eq]
    simp only [List.enumFrom, List.map_cons, List.map_nil, joinWith]
    rw [show "[Doc ".toList ++ (Nat.repr (0 + 1)).toList ++ "] (Relevancia: ".toList
      = "[Doc 1] (Relevancia: ".toList from by decide]
  · intro h
    rw [ragQuery, if_neg (by simpa using h), formatParts_eq]

/-- Witness for C9: the empty store gives the empty context and the
one-hit example store gives the single formatted hit. -/
theorem query_format_witness :
    ragQuery (fun _ => []) [] exampleQuery 3 = [] ∧
    ragQuery (fun _ => []) [exampleDoc] exampleQuery 3 =
      "[Doc 1] (Relevancia: ".toList ++ ")\n".toList ++ "dog".toList := by
  constructor
  · apply (query_format (fun _ => []) [] exampleQuery 3).1
    simp [search]
  · have h := (query_format (fun _ => []) [exampleDoc] exampleQuery 3).2.1 exampleHit
      (search_example (by norm_num))
    rw [h]
    rfl

end RagSystem
